import Mathlib

/-!
Verification of the Morton-code octree addressing module (src/octree/morton.rs).

The u64 Morton code is modelled as a Nat together with explicit wrap-around
arithmetic where the Rust release profile wraps: usize subtraction wraps
modulo 2^64, u64 shifts mask their shift amount modulo 64, and u64 shifts to
the left truncate modulo 2^64.  Bitwise NOT on u64 is XOR with 2^64 - 1.
Fallible operations (the unwrap of a float-to-u64 conversion in the encoder)
are modelled with Option, a none value standing for a panic.
-/

/-- Release-profile usize subtraction: wraps modulo 2^64. -/
def usub (a b : Nat) : Nat := (a + (2 ^ 64 - b % 2 ^ 64)) % 2 ^ 64

/-- Release-profile u64 right shift: the shift amount is masked modulo 64. -/
def shrU64 (a s : Nat) : Nat := a >>> (s % 64)

/-- Release-profile u64 left shift: masked amount, result truncated to 64 bits. -/
def shlU64 (a s : Nat) : Nat := (a <<< (s % 64)) % 2 ^ 64

/-- Bitwise NOT on u64, as XOR with the all-ones word. -/
def notU64 (a : Nat) : Nat := (2 ^ 64 - 1) ^^^ a

/-- NUM_BITS_PER_DIM from morton.rs: 64 / 3 = 21 levels. -/
def NUM_BITS_PER_DIM : Nat := 64 / 3

/-- MORTON_HIGHEST_BITS from morton.rs: the top occupied triplet mask. -/
def MORTON_HIGHEST_BITS : Nat := 0x7000000000000000

/-- MORTON_UNUSED_BIT from morton.rs: the reserved bit 63. -/
def MORTON_UNUSED_BIT : Nat := 0x8000000000000000

namespace Morton

/-- Morton.get_significant_bits: the code shifted right by
3 * (NUM_BITS_PER_DIM - level - 1).  The two usize subtractions wrap in
release mode and the shift amount is masked, which the model makes explicit;
the usize multiplication by 3 also wraps modulo 2^64, but masking modulo 64
absorbs that wrap because 64 divides 2^64. -/
def get_significant_bits (m level : Nat) : Nat :=
  shrU64 m (3 * usub (usub NUM_BITS_PER_DIM level) 1)

/-- Morton.get_level: the 3-bit octant of the triplet at the given depth. -/
def get_level (m level : Nat) : Nat :=
  get_significant_bits m level &&& 0x7

/-- Morton.set_level: clear the triplet at the given depth, then OR the value
shifted into that position.  The usize-to-u64 cast of the value is a
reduction modulo 2^64. -/
def set_level (m level val : Nat) : Nat :=
  (m &&& notU64 (shrU64 MORTON_HIGHEST_BITS (3 * level))) |||
    shlU64 (val % 2 ^ 64) (3 * usub (usub NUM_BITS_PER_DIM level) 1)

/-- Morton.reset_level: clear the triplet at the given depth. -/
def reset_level (m level : Nat) : Nat :=
  m &&& notU64 (shrU64 MORTON_HIGHEST_BITS (3 * level))

end Morton

/-- MortonRegion from morton.rs: a Morton code together with a level. -/
structure MortonRegion where
  morton : Nat
  level : Nat
deriving DecidableEq, Repr

namespace MortonRegion

/-- MortonRegion.significant_bits. -/
def significant_bits (r : MortonRegion) : Nat :=
  Morton.get_significant_bits r.morton r.level

/-- MortonRegion.enter: write the octant into the triplet at the current
level and increment the level. -/
def enter (r : MortonRegion) (sec : Nat) : MortonRegion :=
  { morton := Morton.set_level r.morton r.level sec, level := r.level + 1 }

/-- MortonRegion.exit: decrement the level, read the triplet now beyond the
new level, clear it, and return the octant together with the parent region.
The usize decrement wraps in release mode. -/
def exit (r : MortonRegion) : Nat × MortonRegion :=
  let level := usub r.level 1
  let old := Morton.get_level r.morton level
  (old, { morton := Morton.reset_level r.morton level, level := level })

/-- MortonRegion.get: the deepest populated octant. -/
def get (r : MortonRegion) : Nat :=
  Morton.get_level r.morton (usub r.level 1)

/-- MortonRegion.next: sibling advance within the current level only. -/
def next (r : MortonRegion) : Option MortonRegion :=
  if r.level = 0 then none
  else
    let e := r.exit
    if e.1 = 7 then none
    else some (e.2.enter (e.1 + 1))

/-- The documented invariant on a region: the level is at most 21, the
reserved bit 63 is zero, and every triplet at or beyond the level is zero,
stated as divisibility of the code by the width of the unused low bits. -/
def valid (r : MortonRegion) : Prop :=
  r.level ≤ 21 ∧ r.morton < 2 ^ 63 ∧ r.morton % 2 ^ (3 * (21 - r.level)) = 0

instance (r : MortonRegion) : Decidable (r.valid) :=
  inferInstanceAs (Decidable (_ ∧ _ ∧ _))

end MortonRegion

/-- Agreement of two codes on the triplets shallower than a given level. -/
def prefixEq (k a b : Nat) : Prop :=
  ∀ l, l < k → Morton.get_level a l = Morton.get_level b l

instance (k a b : Nat) : Decidable (prefixEq k a b) :=
  inferInstanceAs (Decidable (∀ l, l < k → _ = _))

/-- Membership of a region in the subtree of a root region: the level is at
least the root level and the first root-level triplets agree. -/
def inSubtree (root s : MortonRegion) : Prop :=
  root.level ≤ s.level ∧ prefixEq root.level root.morton s.morton

instance (root s : MortonRegion) : Decidable (inSubtree root s) :=
  inferInstanceAs (Decidable (_ ∧ _))

/-- PassthroughHash from morton.rs: the hasher state is one u64 value. -/
structure PassthroughHash where
  value : Nat
deriving DecidableEq, Repr

namespace PassthroughHash

/-- Default hasher state, as produced by BuildHasherDefault. -/
def default : PassthroughHash := { value := 0 }

/-- Hasher.write_u64 for PassthroughHash: store the word unmixed. -/
def write_u64 (_h : PassthroughHash) (i : Nat) : PassthroughHash :=
  { value := i % 2 ^ 64 }

/-- Hasher.finish for PassthroughHash: return the stored word. -/
def finish (h : PassthroughHash) : Nat := h.value

end PassthroughHash

/-- Hash for MortonRegion: OR the code with the reserved top bit, take the
significant bits at the level, and write that word into the hasher. -/
def mortonRegionHash (r : MortonRegion) : Nat :=
  (PassthroughHash.default.write_u64
    (Morton.get_significant_bits (r.morton ||| MORTON_UNUSED_BIT) r.level)).finish

/-- MortonMap, modelled by its lookup function: a present key maps to some
payload, an absent key to none. -/
abbrev MortonMap (α : Type) := MortonRegion → Option α

/-- Push the sibling successor of a popped region, when there is one.  This
is the unconditional re-push at the head of each iterator loop body. -/
def pushNext (r : MortonRegion) (st : List MortonRegion) : List MortonRegion :=
  match r.next with
  | some n => n :: st
  | none => st

namespace MortonRegionIterator

/-- One iteration of the while loop in the Iterator impl for
MortonRegionIterator: pop a region, push its sibling successor, look the
region up in the map; when present, push its first child if the level is
below the limit and yield the pair; when absent, yield nothing.  A none
result means the stack was empty and iteration is over. -/
def step {α : Type} (map : MortonMap α) (limit : Nat) :
    List MortonRegion → Option (Option (MortonRegion × α) × List MortonRegion)
  | [] => none
  | r :: rest =>
    let st := pushNext r rest
    match map r with
    | some item =>
      some (some (r, item), if r.level < limit then r.enter 0 :: st else st)
    | none => some (none, st)

/-- Run the bounded iterator for a given number of loop iterations,
collecting the yielded pairs and returning the remaining stack. -/
def run {α : Type} (map : MortonMap α) (limit : Nat) :
    Nat → List MortonRegion → List (MortonRegion × α) × List MortonRegion
  | 0, st => ([], st)
  | fuel + 1, st =>
    match step map limit st with
    | none => ([], st)
    | some (y, st') =>
      let rec' := run map limit fuel st'
      (y.toList ++ rec'.1, rec'.2)

end MortonRegionIterator

namespace MortonRegionFurtherIterator

/-- One iteration of the while loop in the Iterator impl for
MortonRegionFurtherIterator.  The FnMut descent predicate is modelled as a
state-passing function.  The last component records the regions the
predicate was invoked on during this iteration. -/
def step {α σ : Type} (map : MortonMap α) (further : σ → MortonRegion → Bool × σ) (s : σ) :
    List MortonRegion →
      Option (Option (MortonRegion × α) × σ × List MortonRegion × List MortonRegion)
  | [] => none
  | r :: rest =>
    let st := pushNext r rest
    match map r with
    | some item =>
      let b := further s r
      some (some (r, item), b.2, (if b.1 then r.enter 0 :: st else st), [r])
    | none => some (none, s, st, [])

/-- Run the predicate iterator for a given number of loop iterations,
collecting yielded pairs and all predicate invocations. -/
def run {α σ : Type} (map : MortonMap α) (further : σ → MortonRegion → Bool × σ) :
    Nat → σ → List MortonRegion →
      List (MortonRegion × α) × σ × List MortonRegion × List MortonRegion
  | 0, s, st => ([], s, st, [])
  | fuel + 1, s, st =>
    match step map further s st with
    | none => ([], s, st, [])
    | some (y, s', st', calls) =>
      let rec' := run map further fuel s' st'
      (y.toList ++ rec'.1, rec'.2.1, rec'.2.2.1, calls ++ rec'.2.2.2)

end MortonRegionFurtherIterator

namespace MortonRegionFurtherLeavesIterator

/-- One iteration of the while loop in the Iterator impl for
MortonRegionFurtherLeavesIterator: like the predicate iterator, but a pair
is yielded only when the predicate refuses to descend. -/
def step {α σ : Type} (map : MortonMap α) (further : σ → MortonRegion → Bool × σ) (s : σ) :
    List MortonRegion →
      Option (Option (MortonRegion × α) × σ × List MortonRegion × List MortonRegion)
  | [] => none
  | r :: rest =>
    let st := pushNext r rest
    match map r with
    | some item =>
      let b := further s r
      if b.1 then some (none, b.2, r.enter 0 :: st, [r])
      else some (some (r, item), b.2, st, [r])
    | none => some (none, s, st, [])

/-- Run the predicate-leaves iterator for a given number of loop iterations,
collecting yielded pairs and all predicate invocations. -/
def run {α σ : Type} (map : MortonMap α) (further : σ → MortonRegion → Bool × σ) :
    Nat → σ → List MortonRegion →
      List (MortonRegion × α) × σ × List MortonRegion × List MortonRegion
  | 0, s, st => ([], s, st, [])
  | fuel + 1, s, st =>
    match step map further s st with
    | none => ([], s, st, [])
    | some (y, s', st', calls) =>
      let rec' := run map further fuel s' st'
      (y.toList ++ rec'.1, rec'.2.1, rec'.2.2.1, calls ++ rec'.2.2.2)

end MortonRegionFurtherLeavesIterator

/-- Modelled from the spec: the 3-way bit interleave primitive of the
external bitwise crate (morton::encode_3d), missing from the sources.  Bit i
of each input axis is placed into the 3-bit group i of the output, low
groups first, so 21 rounds interleave three 21-bit integers into a 63-bit
code. -/
def encode3dAux : Nat → Nat → Nat → Nat → Nat
  | 0, _, _, _ => 0
  | n + 1, x, y, z =>
    encode3dAux n (x / 2) (y / 2) (z / 2) * 8 + (x % 2 + 2 * (y % 2) + 4 * (z % 2))

/-- morton::encode_3d at the u64 width used by the module. -/
def encode_3d (x y z : Nat) : Nat := encode3dAux NUM_BITS_PER_DIM x y z

/-- Modelled from the spec: the inverse de-interleave primitive of the
external bitwise crate (morton::decode_3d), splitting each 3-bit group of
the code back into one bit per axis. -/
def decode3dAux : Nat → Nat → Nat × Nat × Nat
  | 0, _ => (0, 0, 0)
  | n + 1, c =>
    let p := decode3dAux n (c / 8)
    (2 * p.1 + c % 2, 2 * p.2.1 + c / 2 % 2, 2 * p.2.2 + c / 4 % 2)

/-- morton::decode_3d at the u64 width used by the module. -/
def decode_3d (c : Nat) : Nat × Nat × Nat := decode3dAux NUM_BITS_PER_DIM c

/-- Modelled from the spec: the num ToPrimitive to_u64 conversion used by
the encoder, applied to an exactly represented rational value.  The value is
truncated toward zero; none is returned when the truncation is not
representable as a u64, and the unwrap in the encoder turns that none into
a panic. -/
def f64ToU64 (x : ℚ) : Option Nat :=
  if x ≤ -1 ∨ (2 ^ 64 : ℚ) ≤ x then none else some (Int.toNat ⌊x⌋)

/-- From Vector3 for Morton: scale each coordinate by 2 to the 21, truncate
to u64, interleave, and clear the reserved bit.  All floating-point steps
involved (multiplication by a power of two, truncation) are exact, so the
rational model coincides with the f64 computation on the encode domain. -/
def mortonFromVector (p : ℚ × ℚ × ℚ) : Option Nat :=
  match f64ToU64 (p.1 * 2 ^ 21), f64ToU64 (p.2.1 * 2 ^ 21), f64ToU64 (p.2.2 * 2 ^ 21) with
  | some x, some y, some z => some (encode_3d x y z &&& notU64 MORTON_UNUSED_BIT)
  | _, _, _ => none

/-- Into Vector3 for Morton: de-interleave and return the centre of the
finest cell on each axis.  Adding one half and scaling by 2 to the minus 21
are exact in f64 for 21-bit integers, so the rational model is faithful. -/
def mortonToVector (m : Nat) : ℚ × ℚ × ℚ :=
  let p := decode_3d m
  (((p.1 : ℚ) + 1 / 2) * ((2 : ℚ) ^ 21)⁻¹,
    ((p.2.1 : ℚ) + 1 / 2) * ((2 : ℚ) ^ 21)⁻¹,
    ((p.2.2 : ℚ) + 1 / 2) * ((2 : ℚ) ^ 21)⁻¹)

/-- The level-0 root region of the end-to-end example. -/
def exRoot : MortonRegion := ⟨0, 0⟩

/-- Region A of the end-to-end example: the root entered at octant 3. -/
def exA : MortonRegion := exRoot.enter 3

/-- Region B of the end-to-end example at level 2: A entered at octant 5. -/
def exB : MortonRegion := exA.enter 5

/-- The literal region of the frozen example text, A.enter(3).enter(5),
which sits at level 3. -/
def exBLit : MortonRegion := (exA.enter 3).enter 5

/-- The example map with keys root, A and the level-2 B. -/
def exMapAmended : MortonMap Nat := fun r =>
  if r = exRoot then some 0 else if r = exA then some 1 else
  if r = exB then some 2 else none

/-- The example map with keys root, A and the literal level-3 B. -/
def exMapLiteral : MortonMap Nat := fun r =>
  if r = exRoot then some 0 else if r = exA then some 1 else
  if r = exBLit then some 2 else none

/-- A level-1 traversal root used to exhibit the sibling escape. -/
def escRoot : MortonRegion := ⟨0, 1⟩

/-- The later sibling of escRoot at octant 1, outside its subtree. -/
def escSib : MortonRegion := ⟨2 ^ 60, 1⟩

/-- A map whose only key is the sibling of the traversal root. -/
def escMap : MortonMap Nat := fun r => if r = escSib then some 0 else none

/-- The empty map over Nat payloads. -/
def emptyMapNat : MortonMap Nat := fun _ => none

/-! ## Arithmetic characterisation of the bit-level operations -/

theorem two_pow_pos' (n : Nat) : 0 < 2 ^ n := Nat.two_pow_pos n

theorem usub_of_le {a b : Nat} (hb : b ≤ a) (ha : a < 2 ^ 64) : usub a b = a - b := by
  unfold usub
  have hb64 : b % 2 ^ 64 = b := Nat.mod_eq_of_lt (lt_of_le_of_lt hb ha)
  rw [hb64]
  omega

theorem usub_zero_one : usub 0 1 = 2 ^ 64 - 1 := by
  unfold usub
  norm_num

theorem NUM_BITS_PER_DIM_eq : NUM_BITS_PER_DIM = 21 := rfl

theorem sig_shift_eq {L : Nat} (h : L ≤ 20) :
    3 * usub (usub NUM_BITS_PER_DIM L) 1 % 64 = 3 * (20 - L) := by
  have h1 : usub NUM_BITS_PER_DIM L = 21 - L := by
    rw [NUM_BITS_PER_DIM_eq]
    exact usub_of_le (by omega) (by norm_num)
  have h2 : usub (21 - L) 1 = 20 - L := by
    rw [usub_of_le (by omega) (by omega)]
    omega
  rw [h1, h2]
  exact Nat.mod_eq_of_lt (by omega)

theorem sig_eq {m L : Nat} (h : L ≤ 20) :
    Morton.get_significant_bits m L = m / 2 ^ (3 * (20 - L)) := by
  unfold Morton.get_significant_bits shrU64
  rw [sig_shift_eq h, Nat.shiftRight_eq_div_pow]

theorem get_level_eq {m L : Nat} (h : L ≤ 20) :
    Morton.get_level m L = m / 2 ^ (3 * (20 - L)) % 8 := by
  unfold Morton.get_level
  rw [sig_eq h]
  have h7 : (0x7 : Nat) = 2 ^ 3 - 1 := by norm_num
  rw [h7, Nat.and_pow_two_sub_one_eq_mod]

theorem high_mask_eq {L : Nat} (h : L ≤ 20) :
    shrU64 MORTON_HIGHEST_BITS (3 * L) = 7 * 2 ^ (3 * (20 - L)) := by
  unfold shrU64 MORTON_HIGHEST_BITS
  rw [Nat.mod_eq_of_lt (by omega), Nat.shiftRight_eq_div_pow]
  have h60 : (0x7000000000000000 : Nat) = 7 * 2 ^ 60 := by norm_num
  rw [h60]
  rw [show (60 : Nat) = 3 * (20 - L) + 3 * L by omega, pow_add, ← Nat.mul_assoc]
  exact Nat.mul_div_cancel _ (two_pow_pos' _)

theorem div_of_decomp {s t : Nat} (hi lo : Nat) (hlo : lo < 2 ^ s) (hst : s ≤ t) :
    (2 ^ s * hi + lo) / 2 ^ t = hi / 2 ^ (t - s) := by
  rw [show (2 : Nat) ^ t = 2 ^ s * 2 ^ (t - s) by
        rw [← pow_add]; congr 1; omega,
      ← Nat.div_div_eq_div_mul, Nat.add_comm,
      Nat.add_mul_div_left _ _ (two_pow_pos' s), Nat.div_eq_of_lt hlo, Nat.zero_add]

theorem testBit_decomp {b i : Nat} (a : Nat) (hb : b < 2 ^ i) (j : Nat) :
    (2 ^ i * a + b).testBit j = if j < i then b.testBit j else a.testBit (j - i) := by
  rcases Nat.lt_or_ge j i with hj | hj
  · simp only [hj, if_true]
    rw [Nat.testBit_to_div_mod, Nat.testBit_to_div_mod]
    have hdiv : (2 ^ i * a + b) / 2 ^ j = b / 2 ^ j + 2 ^ (i - j) * a := by
      rw [show (2 : Nat) ^ i = 2 ^ j * 2 ^ (i - j) by
            rw [← pow_add]; congr 1; omega,
          Nat.mul_assoc, Nat.add_comm,
          Nat.add_mul_div_left _ _ (two_pow_pos' j)]
    rw [hdiv, show 2 ^ (i - j) * a = 2 * (2 ^ (i - j - 1) * a) by
          rw [← Nat.mul_assoc, ← pow_succ']; congr 2; omega,
        Nat.add_mul_mod_self_left]
  · simp only [Nat.not_lt.2 hj, if_false]
    rw [Nat.testBit_to_div_mod, Nat.testBit_to_div_mod, div_of_decomp a b hb hj]

theorem decomp_of_mod {m k : Nat} :
    m = 2 ^ (k + 3) * (m / 2 ^ (k + 3)) + (2 ^ k * (m / 2 ^ k % 8) + m % 2 ^ k) := by
  have h1 : m % 2 ^ (k + 3) = 2 ^ k * (m / 2 ^ k % 8) + m % 2 ^ k := by
    rw [show (2 : Nat) ^ (k + 3) = 2 ^ k * 8 by rw [pow_add]; norm_num]
    rw [Nat.mod_mul]
    omega
  have h2 := Nat.div_add_mod m (2 ^ (k + 3))
  omega

theorem inner_lt {s : Nat} (mid lo : Nat) (hmid : mid < 8) (hlo : lo < 2 ^ s) :
    2 ^ s * mid + lo < 2 ^ (s + 3) := by
  calc 2 ^ s * mid + lo < 2 ^ s * (mid + 1) := by rw [Nat.mul_add, Nat.mul_one]; omega
    _ ≤ 2 ^ s * 8 := Nat.mul_le_mul_left _ (by omega)
    _ = 2 ^ (s + 3) := by rw [pow_add]; norm_num

theorem mod_low {s : Nat} (hi mid lo : Nat) (hlo : lo < 2 ^ s) :
    (2 ^ (s + 3) * hi + (2 ^ s * mid + lo)) % 2 ^ s = lo := by
  have hre : 2 ^ (s + 3) * hi + (2 ^ s * mid + lo) = lo + 2 ^ s * (8 * hi + mid) := by
    rw [show (2 : Nat) ^ (s + 3) = 2 ^ s * 8 by rw [pow_add]; norm_num]
    ring
  rw [hre, Nat.add_mul_mod_self_left, Nat.mod_eq_of_lt hlo]

theorem div_high3 {s : Nat} (hi mid lo : Nat) (hmid : mid < 8) (hlo : lo < 2 ^ s) :
    (2 ^ (s + 3) * hi + (2 ^ s * mid + lo)) / 2 ^ (s + 3) = hi := by
  rw [div_of_decomp hi _ (inner_lt mid lo hmid hlo) (le_refl _)]
  simp

theorem testBit_two_pow_mul (v k j : Nat) :
    (2 ^ k * v).testBit j = (decide (j ≥ k) && v.testBit (j - k)) := by
  rw [Nat.mul_comm, ← Nat.shiftLeft_eq, Nat.testBit_shiftLeft]

theorem land_not_high {m k : Nat} (hm : m < 2 ^ 64) (hk : k + 3 ≤ 64) :
    m &&& notU64 (7 * 2 ^ k) = 2 ^ (k + 3) * (m / 2 ^ (k + 3)) + m % 2 ^ k := by
  obtain ⟨hi, mid, lo, hmid, hlo, rfl⟩ :
      ∃ hi mid lo, mid < 8 ∧ lo < 2 ^ k ∧
        m = 2 ^ (k + 3) * hi + (2 ^ k * mid + lo) :=
    ⟨m / 2 ^ (k + 3), m / 2 ^ k % 8, m % 2 ^ k, Nat.mod_lt _ (by norm_num),
      Nat.mod_lt _ (two_pow_pos' k), decomp_of_mod⟩
  rw [div_high3 hi mid lo hmid hlo, mod_low hi mid lo hlo]
  have hinner := inner_lt mid lo hmid hlo
  have hlo3 : lo < 2 ^ (k + 3) :=
    lt_of_lt_of_le hlo (Nat.pow_le_pow_right (by norm_num) (by omega))
  have hhi : hi < 2 ^ (64 - (k + 3)) := by
    by_contra hcon
    push_neg at hcon
    have : 2 ^ 64 ≤ 2 ^ (k + 3) * hi := by
      calc (2 : Nat) ^ 64 = 2 ^ (k + 3) * 2 ^ (64 - (k + 3)) := by
            rw [← pow_add]; congr 1; omega
        _ ≤ 2 ^ (k + 3) * hi := Nat.mul_le_mul_left _ hcon
    omega
  apply Nat.eq_of_testBit_eq
  intro j
  rw [Nat.testBit_land]
  unfold notU64
  rw [Nat.testBit_xor, Nat.testBit_two_pow_sub_one,
      show (7 : Nat) * 2 ^ k = 2 ^ k * 7 from Nat.mul_comm _ _,
      testBit_two_pow_mul 7 k j,
      testBit_decomp hi hinner j, testBit_decomp mid hlo j, testBit_decomp hi hlo3 j]
  rcases Nat.lt_or_ge j k with hjk | hjk
  · have hj3 : j < k + 3 := by omega
    have hnk : ¬ k ≤ j := by omega
    have hj64 : j < 64 := by omega
    simp [hjk, hj3, hnk, hj64, ge_iff_le]
  · rcases Nat.lt_or_ge j (k + 3) with hjk3 | hjk3
    · have hj64 : j < 64 := by omega
      have h7 : (7 : Nat).testBit (j - k) = true := by
        rw [show (7 : Nat) = 2 ^ 3 - 1 by norm_num, Nat.testBit_two_pow_sub_one]
        simp
        omega
      have hlo2 : lo.testBit j = false :=
        Nat.testBit_lt_two_pow
          (lt_of_lt_of_le hlo (Nat.pow_le_pow_right (by norm_num) hjk))
      simp [Nat.not_lt.2 hjk, hjk3, hjk, hj64, h7, hlo2, ge_iff_le]
    · have h7 : (7 : Nat).testBit (j - k) = false := by
        apply Nat.testBit_lt_two_pow
        calc (7 : Nat) < 2 ^ 3 := by norm_num
          _ ≤ 2 ^ (j - k) := Nat.pow_le_pow_right (by norm_num) (by omega)
      rcases Nat.lt_or_ge j 64 with hj64 | hj64
      · simp [Nat.not_lt.2 hjk, Nat.not_lt.2 hjk3, hjk, hj64, h7, ge_iff_le]
      · have hhib : hi.testBit (j - (k + 3)) = false :=
          Nat.testBit_lt_two_pow
            (lt_of_lt_of_le hhi (Nat.pow_le_pow_right (by norm_num) (by omega)))
        simp [Nat.not_lt.2 hjk, Nat.not_lt.2 hjk3, Nat.not_lt.2 hj64, hjk, h7, hhib,
          ge_iff_le]

theorem lor_mid {v lo k : Nat} (hi : Nat) (hv : v < 8) (hlo : lo < 2 ^ k) :
    (2 ^ (k + 3) * hi + lo) ||| 2 ^ k * v = 2 ^ (k + 3) * hi + (2 ^ k * v + lo) := by
  have hlo3 : lo < 2 ^ (k + 3) :=
    lt_of_lt_of_le hlo (Nat.pow_le_pow_right (by norm_num) (by omega))
  have hinner := inner_lt v lo hv hlo
  apply Nat.eq_of_testBit_eq
  intro j
  rw [Nat.testBit_or, testBit_decomp hi hlo3 j, testBit_two_pow_mul v k j,
      testBit_decomp hi hinner j, testBit_decomp v hlo j]
  rcases Nat.lt_or_ge j k with hjk | hjk
  · have hj3 : j < k + 3 := by omega
    have hnk : ¬ k ≤ j := by omega
    simp [hjk, hj3, hnk, ge_iff_le]
  · rcases Nat.lt_or_ge j (k + 3) with hjk3 | hjk3
    · have hlo2 : lo.testBit j = false :=
        Nat.testBit_lt_two_pow
          (lt_of_lt_of_le hlo (Nat.pow_le_pow_right (by norm_num) hjk))
      simp [Nat.not_lt.2 hjk, hjk3, hjk, hlo2, ge_iff_le]
    · have hv2 : v.testBit (j - k) = false := by
        apply Nat.testBit_lt_two_pow
        calc v < 2 ^ 3 := by omega
          _ ≤ 2 ^ (j - k) := Nat.pow_le_pow_right (by norm_num) (by omega)
      simp [Nat.not_lt.2 hjk, Nat.not_lt.2 hjk3, hjk, hv2, ge_iff_le]

theorem lor_top {m : Nat} (hm : m < 2 ^ 63) : m ||| 2 ^ 63 = 2 ^ 63 + m := by
  have h := @lor_mid 1 m 63 0 (by norm_num) hm
  simpa using h

theorem set_level_eq {m L v : Nat} (hL : L ≤ 20) (hm : m < 2 ^ 64) (hv : v < 8) :
    Morton.set_level m L v =
      2 ^ (3 * (20 - L) + 3) * (m / 2 ^ (3 * (20 - L) + 3)) +
        (2 ^ (3 * (20 - L)) * v + m % 2 ^ (3 * (20 - L))) := by
  unfold Morton.set_level
  rw [high_mask_eq hL, land_not_high hm (by omega)]
  have hshl : shlU64 (v % 2 ^ 64) (3 * usub (usub NUM_BITS_PER_DIM L) 1) =
      2 ^ (3 * (20 - L)) * v := by
    unfold shlU64
    rw [sig_shift_eq hL, Nat.shiftLeft_eq,
        Nat.mod_eq_of_lt (show v < 2 ^ 64 by omega)]
    have hb : v * 2 ^ (3 * (20 - L)) < 2 ^ 64 := by
      calc v * 2 ^ (3 * (20 - L)) < 8 * 2 ^ (3 * (20 - L)) :=
            (Nat.mul_lt_mul_right (two_pow_pos' _)).2 hv
        _ ≤ 8 * 2 ^ 60 :=
            Nat.mul_le_mul_left _ (Nat.pow_le_pow_right (by norm_num) (by omega))
        _ < 2 ^ 64 := by norm_num
    rw [Nat.mod_eq_of_lt hb]
    exact Nat.mul_comm _ _
  rw [hshl, lor_mid _ hv (Nat.mod_lt _ (two_pow_pos' _))]

theorem reset_level_eq {m L : Nat} (hL : L ≤ 20) (hm : m < 2 ^ 64) :
    Morton.reset_level m L =
      2 ^ (3 * (20 - L) + 3) * (m / 2 ^ (3 * (20 - L) + 3)) + m % 2 ^ (3 * (20 - L)) := by
  unfold Morton.reset_level
  rw [high_mask_eq hL, land_not_high hm (by omega)]

theorem get_level_of_decomp {L : Nat} (hi v lo : Nat) (hL : L ≤ 20) (hv : v < 8)
    (hlo : lo < 2 ^ (3 * (20 - L))) :
    Morton.get_level (2 ^ (3 * (20 - L) + 3) * hi + (2 ^ (3 * (20 - L)) * v + lo)) L = v := by
  rw [get_level_eq hL]
  have hre : 2 ^ (3 * (20 - L) + 3) * hi + (2 ^ (3 * (20 - L)) * v + lo) =
      lo + 2 ^ (3 * (20 - L)) * (8 * hi + v) := by
    rw [show (2 : Nat) ^ (3 * (20 - L) + 3) = 2 ^ (3 * (20 - L)) * 8 by
          rw [pow_add]; norm_num]
    ring
  rw [hre, Nat.add_mul_div_left _ _ (two_pow_pos' _), Nat.div_eq_of_lt hlo, Nat.zero_add]
  omega

theorem get_set_self {m L v : Nat} (hL : L ≤ 20) (hm : m < 2 ^ 64) (hv : v < 8) :
    Morton.get_level (Morton.set_level m L v) L = v := by
  rw [set_level_eq hL hm hv]
  exact get_level_of_decomp _ _ _ hL hv (Nat.mod_lt _ (two_pow_pos' _))

theorem set_level_lt {m L v : Nat} (hm : m < 2 ^ 64) : Morton.set_level m L v < 2 ^ 64 := by
  unfold Morton.set_level shlU64
  exact Nat.or_lt_two_pow (lt_of_le_of_lt Nat.and_le_left hm) (Nat.mod_lt _ (by norm_num))

theorem reset_level_le (m L : Nat) : Morton.reset_level m L ≤ m := Nat.and_le_left

theorem get_level_lt (m L : Nat) : Morton.get_level m L < 8 := by
  unfold Morton.get_level
  rw [show (0x7 : Nat) = 2 ^ 3 - 1 by norm_num, Nat.and_pow_two_sub_one_eq_mod]
  exact Nat.mod_lt _ (by norm_num)

theorem get_level_set_of_lt {m L v l : Nat} (hL : L ≤ 20) (hl : l < L) (hm : m < 2 ^ 64)
    (hv : v < 8) :
    Morton.get_level (Morton.set_level m L v) l = Morton.get_level m l := by
  have hkl : 3 * (20 - L) + 3 ≤ 3 * (20 - l) := by omega
  rw [get_level_eq (show l ≤ 20 by omega), get_level_eq (show l ≤ 20 by omega),
      set_level_eq hL hm hv]
  have hstep :
      (2 ^ (3 * (20 - L) + 3) * (m / 2 ^ (3 * (20 - L) + 3)) +
        (2 ^ (3 * (20 - L)) * v + m % 2 ^ (3 * (20 - L)))) / 2 ^ (3 * (20 - l)) =
      m / 2 ^ (3 * (20 - l)) := by
    rw [div_of_decomp (m / 2 ^ (3 * (20 - L) + 3))
        (2 ^ (3 * (20 - L)) * v + m % 2 ^ (3 * (20 - L)))
        (inner_lt v (m % 2 ^ (3 * (20 - L))) hv (Nat.mod_lt m (two_pow_pos' _))) hkl,
      show m / 2 ^ (3 * (20 - l)) =
          m / 2 ^ (3 * (20 - L) + 3) / 2 ^ (3 * (20 - l) - (3 * (20 - L) + 3)) by
        rw [Nat.div_div_eq_div_mul, ← pow_add,
          show 3 * (20 - L) + 3 + (3 * (20 - l) - (3 * (20 - L) + 3)) = 3 * (20 - l) by
            omega]]
  rw [hstep]

theorem get_level_reset_of_lt {m L l : Nat} (hL : L ≤ 20) (hl : l < L) (hm : m < 2 ^ 64) :
    Morton.get_level (Morton.reset_level m L) l = Morton.get_level m l := by
  have hkl : 3 * (20 - L) + 3 ≤ 3 * (20 - l) := by omega
  have hlo3 : m % 2 ^ (3 * (20 - L)) < 2 ^ (3 * (20 - L) + 3) :=
    lt_of_lt_of_le (Nat.mod_lt _ (two_pow_pos' _))
      (Nat.pow_le_pow_right (by norm_num) (by omega))
  rw [get_level_eq (show l ≤ 20 by omega), get_level_eq (show l ≤ 20 by omega),
      reset_level_eq hL hm]
  have hstep :
      (2 ^ (3 * (20 - L) + 3) * (m / 2 ^ (3 * (20 - L) + 3)) +
        m % 2 ^ (3 * (20 - L))) / 2 ^ (3 * (20 - l)) =
      m / 2 ^ (3 * (20 - l)) := by
    rw [div_of_decomp (m / 2 ^ (3 * (20 - L) + 3)) (m % 2 ^ (3 * (20 - L))) hlo3 hkl,
      show m / 2 ^ (3 * (20 - l)) =
          m / 2 ^ (3 * (20 - L) + 3) / 2 ^ (3 * (20 - l) - (3 * (20 - L) + 3)) by
        rw [Nat.div_div_eq_div_mul, ← pow_add,
          show 3 * (20 - L) + 3 + (3 * (20 - l) - (3 * (20 - L) + 3)) = 3 * (20 - l) by
            omega]]
  rw [hstep]

theorem reset_set {m L v : Nat} (hL : L ≤ 20) (hm : m < 2 ^ 64) (hv : v < 8) :
    Morton.reset_level (Morton.set_level m L v) L = Morton.reset_level m L := by
  rw [reset_level_eq hL (set_level_lt hm), set_level_eq hL hm hv,
      reset_level_eq hL hm,
      div_high3 _ _ _ hv (Nat.mod_lt _ (two_pow_pos' _)),
      mod_low _ _ _ (Nat.mod_lt _ (two_pow_pos' _))]

theorem valid_mod {r : MortonRegion} (h : r.valid) (hL : r.level ≤ 20) :
    r.morton % 2 ^ (3 * (20 - r.level) + 3) = 0 := by
  have h2 := h.2.2
  rwa [show 3 * (21 - r.level) = 3 * (20 - r.level) + 3 by omega] at h2

theorem valid_reset {m L : Nat} (hL : L ≤ 20) (hm : m < 2 ^ 64)
    (hz : m % 2 ^ (3 * (20 - L) + 3) = 0) : Morton.reset_level m L = m := by
  rw [reset_level_eq hL hm]
  have h1 := Nat.div_add_mod m (2 ^ (3 * (20 - L) + 3))
  have h2 : m % 2 ^ (3 * (20 - L)) = 0 := by
    have hd : (2 : Nat) ^ (3 * (20 - L)) ∣ 2 ^ (3 * (20 - L) + 3) :=
      pow_dvd_pow 2 (by omega)
    rw [← Nat.mod_mod_of_dvd m hd, hz, Nat.zero_mod]
  omega

theorem digit8_ext : ∀ (k m1 m2 : Nat), m1 < 8 ^ k → m2 < 8 ^ k →
    (∀ j, j < k → m1 / 8 ^ j % 8 = m2 / 8 ^ j % 8) → m1 = m2 := by
  intro k
  induction k with
  | zero =>
    intro m1 m2 h1 h2 _
    simp only [pow_zero] at h1 h2
    omega
  | succ k ih =>
    intro m1 m2 h1 h2 hd
    have h0 := hd 0 (Nat.succ_pos k)
    simp only [pow_zero, Nat.div_one] at h0
    have hq : m1 / 8 = m2 / 8 := by
      apply ih
      · exact (Nat.div_lt_iff_lt_mul (by norm_num)).2 (by rw [← pow_succ]; exact h1)
      · exact (Nat.div_lt_iff_lt_mul (by norm_num)).2 (by rw [← pow_succ]; exact h2)
      · intro j hj
        have hstep := hd (j + 1) (by omega)
        rw [pow_succ', ← Nat.div_div_eq_div_mul, ← Nat.div_div_eq_div_mul] at hstep
        exact hstep
    have e1 := Nat.div_add_mod m1 8
    have e2 := Nat.div_add_mod m2 8
    omega

theorem digit_zero {m L j : Nat} (hz : m % 2 ^ (3 * (21 - L)) = 0) (hj : j < 21 - L) :
    m / 8 ^ j % 8 = 0 := by
  have hd : (8 : Nat) ^ (j + 1) ∣ m := by
    have hone : (8 : Nat) ^ (j + 1) ∣ 8 ^ (21 - L) := pow_dvd_pow 8 (by omega)
    have htwo : (8 : Nat) ^ (21 - L) ∣ m := by
      rw [show (8 : Nat) ^ (21 - L) = 2 ^ (3 * (21 - L)) by
            rw [show (8 : Nat) = 2 ^ 3 by norm_num, ← pow_mul]]
      exact Nat.dvd_of_mod_eq_zero hz
    exact dvd_trans hone htwo
  obtain ⟨t, ht⟩ := hd
  rw [ht, pow_succ, Nat.mul_assoc, Nat.mul_div_cancel_left _ (by positivity), Nat.mul_mod_right]

theorem pow2_3j (j : Nat) : (2 : Nat) ^ (3 * j) = 8 ^ j := by
  rw [show (8 : Nat) = 2 ^ 3 by norm_num, ← pow_mul]

theorem valid_code_ext {r1 r2 : MortonRegion} (h1 : r1.valid) (h2 : r2.valid)
    (hl : r2.level = r1.level) (hp : prefixEq r1.level r1.morton r2.morton) :
    r1.morton = r2.morton := by
  have h8 : (8 : Nat) ^ 21 = 2 ^ 63 := by norm_num
  apply digit8_ext 21 _ _ (h8 ▸ h1.2.1) (h8 ▸ h2.2.1)
  intro j hj
  rcases Nat.lt_or_ge j (21 - r1.level) with hlow | hhigh
  · rw [digit_zero h1.2.2 hlow, digit_zero (hl ▸ h2.2.2) hlow]
  · have hl20 : 20 - j < r1.level := by omega
    have hpj := hp (20 - j) hl20
    rw [get_level_eq (by omega), get_level_eq (by omega),
        show 3 * (20 - (20 - j)) = 3 * j by omega, pow2_3j] at hpj
    exact hpj


theorem MORTON_UNUSED_BIT_eq : MORTON_UNUSED_BIT = 2 ^ 63 := by
  norm_num [MORTON_UNUSED_BIT]

theorem region_hash_write (r : MortonRegion) :
    mortonRegionHash r =
      (PassthroughHash.default.write_u64
        (Morton.get_significant_bits (r.morton ||| MORTON_UNUSED_BIT) r.level)).finish := rfl

theorem write_finish (i : Nat) :
    (PassthroughHash.default.write_u64 i).finish = i % 2 ^ 64 := rfl

theorem sig_eq_21 (x : Nat) : Morton.get_significant_bits x 21 = x / 2 ^ 61 := by
  unfold Morton.get_significant_bits shrU64
  have h1 : usub NUM_BITS_PER_DIM 21 = 0 := by
    rw [NUM_BITS_PER_DIM_eq, usub_of_le (by omega) (by norm_num)]
  rw [h1, usub_zero_one, show 3 * (2 ^ 64 - 1) % 64 = 61 by norm_num,
    Nat.shiftRight_eq_div_pow]

theorem region_hash_mk (m L : Nat) (hm : m < 2 ^ 63) (hL : L ≤ 20) :
    mortonRegionHash ⟨m, L⟩ = (2 ^ 63 + m) / 2 ^ (3 * (20 - L)) % 2 ^ 64 := by
  have h0 := (region_hash_write ⟨m, L⟩).trans (write_finish _)
  dsimp only at h0
  rw [MORTON_UNUSED_BIT_eq] at h0
  rw [lor_top hm] at h0
  rw [sig_eq hL] at h0
  exact h0

theorem region_hash_mk_21 (m : Nat) (hm : m < 2 ^ 63) :
    mortonRegionHash ⟨m, 21⟩ = (2 ^ 63 + m) / 2 ^ 61 % 2 ^ 64 := by
  have h0 := (region_hash_write ⟨m, 21⟩).trans (write_finish _)
  dsimp only at h0
  rw [MORTON_UNUSED_BIT_eq] at h0
  rw [lor_top hm] at h0
  rw [sig_eq_21] at h0
  exact h0

theorem valid_P_lt {r : MortonRegion} (h : r.valid) (hL : r.level ≤ 20) :
    r.morton / 2 ^ (3 * (20 - r.level) + 3) < 2 ^ (3 * r.level) := by
  rw [Nat.div_lt_iff_lt_mul (two_pow_pos' _), ← pow_add]
  exact lt_of_lt_of_le h.2.1 (Nat.pow_le_pow_right (by norm_num) (by omega))

theorem valid_P_decomp {r : MortonRegion} (h : r.valid) (hL : r.level ≤ 20) :
    r.morton = 2 ^ (3 * (20 - r.level) + 3) * (r.morton / 2 ^ (3 * (20 - r.level) + 3)) :=
  (Nat.mul_div_cancel' (Nat.dvd_of_mod_eq_zero (valid_mod h hL))).symm

theorem region_hash_eq_aux (m L : Nat) (hL : L ≤ 20) (hm : m < 2 ^ 63)
    (hz : m % 2 ^ (3 * (20 - L) + 3) = 0) :
    mortonRegionHash ⟨m, L⟩ = 2 ^ (3 * L + 3) + 8 * (m / 2 ^ (3 * (20 - L) + 3)) := by
  rw [region_hash_mk m L hm hL]
  have hP : m = 2 ^ (3 * (20 - L) + 3) * (m / 2 ^ (3 * (20 - L) + 3)) :=
    (Nat.mul_div_cancel' (Nat.dvd_of_mod_eq_zero hz)).symm
  have hPlt : m / 2 ^ (3 * (20 - L) + 3) < 2 ^ (3 * L) := by
    rw [Nat.div_lt_iff_lt_mul (two_pow_pos' _), ← pow_add]
    exact lt_of_lt_of_le hm (Nat.pow_le_pow_right (by norm_num) (by omega))
  have hsum : 2 ^ 63 + m =
      2 ^ (3 * (20 - L)) * (2 ^ (3 * L + 3) + 8 * (m / 2 ^ (3 * (20 - L) + 3))) := by
    rw [Nat.mul_add]
    congr 1
    · rw [← pow_add]
      congr 1
      omega
    · rw [show (2 : Nat) ^ (3 * (20 - L)) * (8 * (m / 2 ^ (3 * (20 - L) + 3))) =
          2 ^ (3 * (20 - L) + 3) * (m / 2 ^ (3 * (20 - L) + 3)) by
        rw [pow_add]; ring]
      exact hP
  rw [hsum, Nat.mul_div_cancel_left _ (two_pow_pos' _)]
  apply Nat.mod_eq_of_lt
  have he : (2 : Nat) ^ (3 * L + 3) + 8 * 2 ^ (3 * L) = 2 ^ (3 * L + 4) := by
    rw [pow_add, pow_add]
    ring
  have hle : (2 : Nat) ^ (3 * L + 4) ≤ 2 ^ 64 :=
    Nat.pow_le_pow_right (by norm_num) (by omega)
  omega

theorem region_hash_eq {r : MortonRegion} (h : r.valid) (hL : r.level ≤ 20) :
    mortonRegionHash r =
      2 ^ (3 * r.level + 3) + 8 * (r.morton / 2 ^ (3 * (20 - r.level) + 3)) :=
  region_hash_eq_aux r.morton r.level hL h.2.1 (valid_mod h hL)

theorem region_hash_range {r : MortonRegion} (h : r.valid) (hL : r.level ≤ 20) :
    2 ^ (3 * r.level + 3) ≤ mortonRegionHash r ∧
      mortonRegionHash r < 2 ^ (3 * r.level + 4) := by
  rw [region_hash_eq h hL]
  have hP := valid_P_lt h hL
  have he : (2 : Nat) ^ (3 * r.level + 3) + 8 * 2 ^ (3 * r.level) =
      2 ^ (3 * r.level + 4) := by
    rw [pow_add, pow_add]
    ring
  omega

theorem region_hash_21 {r : MortonRegion} (h : r.valid) (h21 : r.level = 21) :
    4 ≤ mortonRegionHash r ∧ mortonRegionHash r < 8 := by
  obtain ⟨m, L⟩ := r
  obtain rfl : L = 21 := h21
  have hm : m < 2 ^ 63 := h.2.1
  rw [region_hash_mk_21 m hm]
  have hlt : (2 ^ 63 + m) / 2 ^ 61 < 2 ^ 64 :=
    lt_of_le_of_lt (Nat.div_le_self _ _) (by omega)
  rw [Nat.mod_eq_of_lt hlt]
  constructor
  · rw [Nat.le_div_iff_mul_le (two_pow_pos' 61)]
    omega
  · rw [Nat.div_lt_iff_lt_mul (two_pow_pos' 61)]
    omega

theorem sig_valid {r : MortonRegion} (h : r.valid) (hL : r.level ≤ 20) :
    r.significant_bits = 8 * (r.morton / 2 ^ (3 * (20 - r.level) + 3)) := by
  unfold MortonRegion.significant_bits
  rw [sig_eq hL]
  conv_lhs => rw [valid_P_decomp h hL]
  rw [show (2 : Nat) ^ (3 * (20 - r.level) + 3) *
        (r.morton / 2 ^ (3 * (20 - r.level) + 3)) =
      2 ^ (3 * (20 - r.level)) * (8 * (r.morton / 2 ^ (3 * (20 - r.level) + 3))) by
    rw [pow_add]; ring]
  exact Nat.mul_div_cancel_left _ (two_pow_pos' _)

theorem exit_enter {r : MortonRegion} (h : r.valid) (hl : r.level < 21) {o : Nat}
    (ho : o < 8) : (r.enter o).exit = (o, r) := by
  have hL : r.level ≤ 20 := by omega
  have hm64 : r.morton < 2 ^ 64 := lt_trans h.2.1 (by norm_num)
  unfold MortonRegion.enter MortonRegion.exit
  simp only
  have hlev : usub (r.level + 1) 1 = r.level := by
    rw [usub_of_le (by omega) (by omega)]
    omega
  rw [hlev, get_set_self hL hm64 ho, reset_set hL hm64 ho,
      valid_reset hL hm64 (valid_mod h hL)]

theorem get_eq {r : MortonRegion} (h0 : 0 < r.level) (h21 : r.level ≤ 21) :
    r.get = Morton.get_level r.morton (r.level - 1) := by
  unfold MortonRegion.get
  rw [usub_of_le (by omega) (by omega)]

theorem next_none_zero {r : MortonRegion} (h : r.level = 0) : r.next = none := by
  unfold MortonRegion.next
  simp [h]

theorem next_none_seven {r : MortonRegion} (h0 : 0 < r.level) (h7 : r.get = 7) :
    r.next = none := by
  unfold MortonRegion.next MortonRegion.exit
  have hne : ¬ r.level = 0 := by omega
  have hget : Morton.get_level r.morton (usub r.level 1) = 7 := h7
  simp [hne, hget]

theorem next_some {r : MortonRegion} (h0 : 0 < r.level) (h21 : r.level ≤ 21)
    (h7 : r.get ≠ 7) :
    r.next = some
      ⟨Morton.set_level (Morton.reset_level r.morton (r.level - 1)) (r.level - 1)
          (r.get + 1),
        r.level⟩ := by
  unfold MortonRegion.next MortonRegion.exit MortonRegion.enter
  have hne : ¬ r.level = 0 := by omega
  have hlev : usub r.level 1 = r.level - 1 := usub_of_le (by omega) (by omega)
  have hget : Morton.get_level r.morton (usub r.level 1) = r.get := rfl
  have hget2 : Morton.get_level r.morton (r.level - 1) = r.get := by
    rw [← hlev]
    exact hget
  simp only [hne, if_false, hget2, h7, hlev, ite_false]
  rw [show r.level - 1 + 1 = r.level by omega]

theorem next_props {r : MortonRegion} (h0 : 0 < r.level) (h21 : r.level ≤ 21)
    (hm : r.morton < 2 ^ 64) (h7 : r.get < 7) :
    ∃ n, r.next = some n ∧ n.level = r.level ∧ n.get = r.get + 1 ∧
      n.morton < 2 ^ 64 ∧ prefixEq (r.level - 1) n.morton r.morton := by
  have hL1 : r.level - 1 ≤ 20 := by omega
  have hmr : Morton.reset_level r.morton (r.level - 1) < 2 ^ 64 :=
    lt_of_le_of_lt (reset_level_le _ _) hm
  refine ⟨_, next_some h0 h21 (by omega), rfl, ?_, set_level_lt hmr, ?_⟩
  · show Morton.get_level _ (usub r.level 1) = r.get + 1
    rw [usub_of_le (by omega) (by omega)]
    exact get_set_self hL1 hmr (by omega)
  · intro l hl
    show Morton.get_level (Morton.set_level _ _ _) l = Morton.get_level r.morton l
    rw [get_level_set_of_lt hL1 hl hmr (by omega),
        get_level_reset_of_lt hL1 hl hm]

theorem next_outside {r n : MortonRegion} (h21 : r.level ≤ 21) (hm : r.morton < 2 ^ 64)
    (hn : r.next = some n) : ¬ inSubtree r n := by
  have h0 : 0 < r.level := by
    by_contra hc
    rw [next_none_zero (by omega)] at hn
    exact Option.noConfusion hn
  have h7 : r.get ≠ 7 := by
    intro hc
    rw [next_none_seven h0 hc] at hn
    exact Option.noConfusion hn
  have hget7 : r.get < 7 := by
    have h8 : r.get < 8 := get_level_lt r.morton (usub r.level 1)
    omega
  obtain ⟨n', hn', hlev', hget', _, hpre'⟩ := next_props h0 h21 hm hget7
  rw [hn] at hn'
  obtain rfl : n = n' := by injection hn'
  rintro ⟨hle, hpre⟩
  have h1 := hpre (r.level - 1) (by omega)
  have hg1 : Morton.get_level r.morton (r.level - 1) = r.get := (get_eq h0 h21).symm
  have hg2 : Morton.get_level n.morton (r.level - 1) = r.get + 1 := by
    have hx := hget'
    rwa [get_eq (by omega) (by omega), hlev',
      show r.level - 1 = r.level - 1 from rfl] at hx
  omega

theorem encode3dAux_lt (n : Nat) : ∀ x y z, encode3dAux n x y z < 8 ^ n := by
  induction n with
  | zero =>
    intro x y z
    simp [encode3dAux]
  | succ n ih =>
    intro x y z
    have hb : x % 2 + 2 * (y % 2) + 4 * (z % 2) < 8 := by omega
    have hE := ih (x / 2) (y / 2) (z / 2)
    show encode3dAux n (x / 2) (y / 2) (z / 2) * 8 + (x % 2 + 2 * (y % 2) + 4 * (z % 2)) <
      8 ^ (n + 1)
    rw [pow_succ]
    omega

theorem mod_double (x n : Nat) : 2 * (x / 2 % 2 ^ n) + x % 2 = x % 2 ^ (n + 1) := by
  rw [pow_succ', Nat.mod_mul]
  omega

theorem decode3d_encode3d (n : Nat) :
    ∀ x y z, decode3dAux n (encode3dAux n x y z) = (x % 2 ^ n, y % 2 ^ n, z % 2 ^ n) := by
  induction n with
  | zero =>
    intro x y z
    simp [decode3dAux, encode3dAux, Nat.mod_one]
  | succ n ih =>
    intro x y z
    show decode3dAux (n + 1)
        (encode3dAux n (x / 2) (y / 2) (z / 2) * 8 + (x % 2 + 2 * (y % 2) + 4 * (z % 2))) = _
    set E := encode3dAux n (x / 2) (y / 2) (z / 2) with hE
    set b := x % 2 + 2 * (y % 2) + 4 * (z % 2) with hb
    have hc8 : (E * 8 + b) / 8 = E := by omega
    have hc1 : (E * 8 + b) % 2 = x % 2 := by omega
    have hc2 : (E * 8 + b) / 2 % 2 = y % 2 := by omega
    have hc4 : (E * 8 + b) / 4 % 2 = z % 2 := by omega
    show (2 * (decode3dAux n ((E * 8 + b) / 8)).1 + (E * 8 + b) % 2,
        2 * (decode3dAux n ((E * 8 + b) / 8)).2.1 + (E * 8 + b) / 2 % 2,
        2 * (decode3dAux n ((E * 8 + b) / 8)).2.2 + (E * 8 + b) / 4 % 2) = _
    rw [hc8, hc1, hc2, hc4, ih (x / 2) (y / 2) (z / 2)]
    rw [show (x / 2 % 2 ^ n, y / 2 % 2 ^ n, z / 2 % 2 ^ n).1 = x / 2 % 2 ^ n from rfl]
    rw [mod_double, mod_double, mod_double]

theorem notU64_top : notU64 MORTON_UNUSED_BIT = 2 ^ 63 - 1 := by
  rw [MORTON_UNUSED_BIT_eq]
  apply Nat.eq_of_testBit_eq
  intro j
  rw [notU64, Nat.testBit_xor, Nat.testBit_two_pow_sub_one, Nat.testBit_two_pow_sub_one,
    Nat.testBit_two_pow]
  rcases Nat.lt_trichotomy j 63 with hj | hj | hj
  · have h64 : j < 64 := by omega
    have hne : (63 : Nat) ≠ j := by omega
    simp [hj, h64, hne]
  · subst hj
    decide
  · have h64 : ¬ j < 64 := by omega
    have hne : (63 : Nat) ≠ j := by omega
    have hlt : ¬ j < 63 := by omega
    simp [h64, hne, hlt]

theorem decode_encode {x y z : Nat} (hx : x < 2 ^ 21) (hy : y < 2 ^ 21)
    (hz : z < 2 ^ 21) :
    decode_3d (encode_3d x y z &&& notU64 MORTON_UNUSED_BIT) = (x, y, z) := by
  have hE : encode_3d x y z < 2 ^ 63 := by
    have h := encode3dAux_lt 21 x y z
    have h63 : (8 : Nat) ^ 21 = 2 ^ 63 := by norm_num
    unfold encode_3d
    rw [NUM_BITS_PER_DIM_eq]
    omega
  have hmask : encode_3d x y z &&& notU64 MORTON_UNUSED_BIT = encode_3d x y z := by
    rw [notU64_top, show (2 : Nat) ^ 63 - 1 = 2 ^ 63 - 1 from rfl,
      Nat.and_pow_two_sub_one_eq_mod, Nat.mod_eq_of_lt hE]
  rw [hmask]
  unfold decode_3d encode_3d
  rw [NUM_BITS_PER_DIM_eq, decode3d_encode3d 21 x y z,
    Nat.mod_eq_of_lt hx, Nat.mod_eq_of_lt hy, Nat.mod_eq_of_lt hz]

theorem f64ToU64_in_range {x : ℚ} (h0 : 0 ≤ x) (h1 : x < 2 ^ 64) :
    f64ToU64 x = some (Int.toNat ⌊x⌋) := by
  unfold f64ToU64
  rw [if_neg]
  push_neg
  constructor
  · linarith
  · linarith

theorem floor_toNat_lt {c : ℚ} (h0 : 0 ≤ c) (h1 : c < 1) :
    Int.toNat ⌊c * 2 ^ 21⌋ < 2 ^ 21 := by
  have hlt : ⌊c * 2 ^ 21⌋ < (2 ^ 21 : ℤ) := by
    rw [Int.floor_lt]
    push_cast
    nlinarith
  omega

theorem encode_domain {px py pz : ℚ} (hx0 : 0 ≤ px) (hx1 : px < 1) (hy0 : 0 ≤ py)
    (hy1 : py < 1) (hz0 : 0 ≤ pz) (hz1 : pz < 1) :
    mortonFromVector (px, py, pz) =
      some (encode_3d (Int.toNat ⌊px * 2 ^ 21⌋) (Int.toNat ⌊py * 2 ^ 21⌋)
        (Int.toNat ⌊pz * 2 ^ 21⌋) &&& notU64 MORTON_UNUSED_BIT) := by
  have hbx : (0 : ℚ) ≤ px * 2 ^ 21 ∧ px * 2 ^ 21 < 2 ^ 64 := by
    constructor
    · positivity
    · nlinarith
  have hby : (0 : ℚ) ≤ py * 2 ^ 21 ∧ py * 2 ^ 21 < 2 ^ 64 := by
    constructor
    · positivity
    · nlinarith
  have hbz : (0 : ℚ) ≤ pz * 2 ^ 21 ∧ pz * 2 ^ 21 < 2 ^ 64 := by
    constructor
    · positivity
    · nlinarith
  show (match f64ToU64 (px * 2 ^ 21), f64ToU64 (py * 2 ^ 21), f64ToU64 (pz * 2 ^ 21) with
    | some x, some y, some z => some (encode_3d x y z &&& notU64 MORTON_UNUSED_BIT)
    | _, _, _ => none) = _
  rw [f64ToU64_in_range hbx.1 hbx.2, f64ToU64_in_range hby.1 hby.2,
    f64ToU64_in_range hbz.1 hbz.2]

theorem decode_code {x y z : Nat} (hx : x < 2 ^ 21) (hy : y < 2 ^ 21) (hz : z < 2 ^ 21) :
    mortonToVector (encode_3d x y z &&& notU64 MORTON_UNUSED_BIT) =
      (((x : ℚ) + 1 / 2) * ((2 : ℚ) ^ 21)⁻¹, ((y : ℚ) + 1 / 2) * ((2 : ℚ) ^ 21)⁻¹,
        ((z : ℚ) + 1 / 2) * ((2 : ℚ) ^ 21)⁻¹) := by
  unfold mortonToVector
  rw [decode_encode hx hy hz]

theorem center_close {c : ℚ} (h0 : 0 ≤ c) (h1 : c < 1) :
    |((⌊c * 2 ^ 21⌋ : ℚ) + 1 / 2) * ((2 : ℚ) ^ 21)⁻¹ - c| ≤ ((2 : ℚ) ^ 22)⁻¹ := by
  have hf1 : (⌊c * 2 ^ 21⌋ : ℚ) ≤ c * 2 ^ 21 := Int.floor_le _
  have hf2 : c * 2 ^ 21 < (⌊c * 2 ^ 21⌋ : ℚ) + 1 := Int.lt_floor_add_one _
  have key : ((⌊c * 2 ^ 21⌋ : ℚ) + 1 / 2) * ((2 : ℚ) ^ 21)⁻¹ - c =
      ((⌊c * 2 ^ 21⌋ : ℚ) + 1 / 2 - c * 2 ^ 21) * ((2 : ℚ) ^ 21)⁻¹ := by
    field_simp
    ring
  rw [key, abs_mul, abs_of_nonneg (show (0 : ℚ) ≤ ((2 : ℚ) ^ 21)⁻¹ by positivity)]
  have habs : |(⌊c * 2 ^ 21⌋ : ℚ) + 1 / 2 - c * 2 ^ 21| ≤ 1 / 2 := by
    have h2 : (2 : ℚ) ^ 21 = 2097152 := by norm_num
    rw [h2] at hf1 hf2 ⊢
    rw [abs_le]
    constructor
    · linarith
    · linarith
  calc |(⌊c * 2 ^ 21⌋ : ℚ) + 1 / 2 - c * 2 ^ 21| * ((2 : ℚ) ^ 21)⁻¹
      ≤ 1 / 2 * ((2 : ℚ) ^ 21)⁻¹ := by
        apply mul_le_mul_of_nonneg_right habs
        positivity
    _ = ((2 : ℚ) ^ 22)⁻¹ := by
        rw [show (2 : ℚ) ^ 22 = 2 * 2 ^ 21 by ring]
        field_simp

theorem run_nil {α : Type} (map : MortonMap α) (limit : Nat) :
    ∀ k, MortonRegionIterator.run map limit k [] = ([], []) := by
  intro k
  cases k with
  | zero => rfl
  | succ k => simp [MortonRegionIterator.run, MortonRegionIterator.step]

theorem step_cons_some {α : Type} (map : MortonMap α) (limit : Nat) (r : MortonRegion)
    (rest : List MortonRegion) :
    MortonRegionIterator.step map limit (r :: rest) ≠ none := by
  unfold MortonRegionIterator.step
  rcases hmr : map r with _ | v <;> simp [hmr]

theorem run_stable {α : Type} (map : MortonMap α) (limit : Nat) :
    ∀ fuel st k, (MortonRegionIterator.run map limit fuel st).2 = [] →
      MortonRegionIterator.run map limit (fuel + k) st =
        ((MortonRegionIterator.run map limit fuel st).1, []) := by
  intro fuel
  induction fuel with
  | zero =>
    intro st k h
    simp only [MortonRegionIterator.run] at h ⊢
    subst h
    rw [Nat.zero_add]
    exact run_nil map limit k
  | succ fuel ih =>
    intro st k h
    rw [show fuel + 1 + k = (fuel + k) + 1 by omega]
    cases st with
    | nil =>
      rw [run_nil map limit (fuel + k + 1), run_nil map limit (fuel + 1)]
    | cons r rest =>
      cases hs : MortonRegionIterator.step map limit (r :: rest) with
      | none => exact absurd hs (step_cons_some map limit r rest)
      | some p =>
        obtain ⟨y, st'⟩ := p
        rw [MortonRegionIterator.run, hs] at h
        simp only at h
        rw [MortonRegionIterator.run, hs, MortonRegionIterator.run, hs]
        simp only
        rw [ih st' k h]

theorem furtherRun_calls {α σ : Type} (map : MortonMap α)
    (further : σ → MortonRegion → Bool × σ) :
    ∀ fuel s st c,
      c ∈ (MortonRegionFurtherIterator.run map further fuel s st).2.2.2 →
        (map c).isSome = true := by
  intro fuel
  induction fuel with
  | zero =>
    intro s st c hc
    simp [MortonRegionFurtherIterator.run] at hc
  | succ fuel ih =>
    intro s st c hc
    cases st with
    | nil =>
      simp [MortonRegionFurtherIterator.run, MortonRegionFurtherIterator.step] at hc
    | cons r rest =>
      rcases hmr : map r with _ | v
      · rw [MortonRegionFurtherIterator.run] at hc
        simp only [MortonRegionFurtherIterator.step, hmr] at hc
        simp at hc
        exact ih _ _ _ hc
      · rw [MortonRegionFurtherIterator.run] at hc
        simp only [MortonRegionFurtherIterator.step, hmr] at hc
        simp at hc
        rcases hc with rfl | hc
        · simp [hmr]
        · exact ih _ _ _ hc

theorem leavesRun_calls {α σ : Type} (map : MortonMap α)
    (further : σ → MortonRegion → Bool × σ) :
    ∀ fuel s st c,
      c ∈ (MortonRegionFurtherLeavesIterator.run map further fuel s st).2.2.2 →
        (map c).isSome = true := by
  intro fuel
  induction fuel with
  | zero =>
    intro s st c hc
    simp [MortonRegionFurtherLeavesIterator.run] at hc
  | succ fuel ih =>
    intro s st c hc
    cases st with
    | nil =>
      simp [MortonRegionFurtherLeavesIterator.run,
        MortonRegionFurtherLeavesIterator.step] at hc
    | cons r rest =>
      rcases hmr : map r with _ | v
      · rw [MortonRegionFurtherLeavesIterator.run] at hc
        simp only [MortonRegionFurtherLeavesIterator.step, hmr] at hc
        simp at hc
        exact ih _ _ _ hc
      · rw [MortonRegionFurtherLeavesIterator.run] at hc
        simp only [MortonRegionFurtherLeavesIterator.step, hmr] at hc
        rcases hb : (further s r).1 with _ | _
        · simp [hb] at hc
          rcases hc with rfl | hc
          · simp [hmr]
          · exact ih _ _ _ hc
        · simp [hb] at hc
          rcases hc with rfl | hc
          · simp [hmr]
          · exact ih _ _ _ hc

/-- C1 counterexample: two level-1 addresses whose codes agree on the one
populated triplet but differ in a bit beyond the level (triplet 1) have
different significant_bits values, and the value 24 also shows that one
triplet too many is kept: keeping exactly the single populated triplet
would give 3, not 24. -/
theorem claim1_counterexample :
    prefixEq 1 (3 * 2 ^ 60) (3 * 2 ^ 60 + 2 ^ 57) ∧
    MortonRegion.significant_bits ⟨3 * 2 ^ 60, 1⟩ = 24 ∧
    MortonRegion.significant_bits ⟨3 * 2 ^ 60 + 2 ^ 57, 1⟩ = 25 ∧
    MortonRegion.valid ⟨3 * 2 ^ 60, 1⟩ := by
  refine ⟨by decide, by decide, by decide, by decide⟩

/-- C1 (amended): for level at most 20, significant_bits is the code
shifted right by 3 * (20 - level), keeping the populated triplets together
with triplet level; on invariant-satisfying addresses its value is 8 times
the triplet prefix, and it depends only on the first level triplets: two
invariant-satisfying addresses of the same level with equal prefixes have
equal significant_bits. -/
theorem claim1_amended (r1 r2 : MortonRegion) (h1 : r1.valid) (h2 : r2.valid)
    (hL : r1.level ≤ 20) (hl : r2.level = r1.level)
    (hp : prefixEq r1.level r1.morton r2.morton) :
    r1.significant_bits = r1.morton >>> (3 * (20 - r1.level)) ∧
    r1.significant_bits = 8 * (r1.morton / 2 ^ (3 * (20 - r1.level) + 3)) ∧
    r1.significant_bits = r2.significant_bits := by
  refine ⟨?_, sig_valid h1 hL, ?_⟩
  · show Morton.get_significant_bits r1.morton r1.level = _
    rw [sig_eq hL, Nat.shiftRight_eq_div_pow]
  · unfold MortonRegion.significant_bits
    rw [valid_code_ext h1 h2 hl hp, hl]

/-- C1 witness: the amended claim applied at the level-1 address with
octant 3. -/
theorem claim1_witness :
    MortonRegion.valid ⟨3 * 2 ^ 60, 1⟩ ∧ prefixEq 1 (3 * 2 ^ 60) (3 * 2 ^ 60) ∧
    (MortonRegion.significant_bits ⟨3 * 2 ^ 60, 1⟩ =
        3 * 2 ^ 60 >>> (3 * (20 - 1)) ∧
      MortonRegion.significant_bits ⟨3 * 2 ^ 60, 1⟩ =
        8 * (3 * 2 ^ 60 / 2 ^ (3 * (20 - 1) + 3)) ∧
      MortonRegion.significant_bits ⟨3 * 2 ^ 60, 1⟩ =
        MortonRegion.significant_bits ⟨3 * 2 ^ 60, 1⟩) :=
  ⟨by decide, fun l hl => rfl,
    claim1_amended ⟨3 * 2 ^ 60, 1⟩ ⟨3 * 2 ^ 60, 1⟩ (by decide) (by decide) (by decide)
      rfl (fun l hl => rfl)⟩

/-- C2: on invariant-satisfying addresses, equal level and equal prefix give
equal hash values, and different levels give different hash values, because
the marker bit produced by OR-ing the reserved top bit lands at a
level-dependent position. -/
theorem claim2 (r1 r2 : MortonRegion) (h1 : r1.valid) (h2 : r2.valid) :
    (r1.level = r2.level → prefixEq r1.level r1.morton r2.morton →
      mortonRegionHash r1 = mortonRegionHash r2) ∧
    (r1.level ≠ r2.level → mortonRegionHash r1 ≠ mortonRegionHash r2) := by
  constructor
  · intro hl hp
    have hcode : r1.morton = r2.morton := valid_code_ext h1 h2 hl.symm hp
    have heq : r1 = r2 := by
      obtain ⟨m1, L1⟩ := r1
      obtain ⟨m2, L2⟩ := r2
      dsimp only at hcode hl
      rw [hcode, hl]
    rw [heq]
  · intro hne
    have key : ∀ s1 s2 : MortonRegion, s1.valid → s2.valid → s1.level < s2.level →
        mortonRegionHash s1 ≠ mortonRegionHash s2 := by
      intro s1 s2 v1 v2 hlt
      have hL1 : s1.level ≤ 20 := by
        have h21 := v2.1
        omega
      have hb1 := region_hash_range v1 hL1
      rcases Nat.lt_or_ge s2.level 21 with h20 | h21
      · have hb2 := region_hash_range v2 (by omega)
        have hmono : (2 : Nat) ^ (3 * s1.level + 4) ≤ 2 ^ (3 * s2.level + 3) :=
          Nat.pow_le_pow_right (by norm_num) (by omega)
        omega
      · have h21' : s2.level = 21 := by
          have hx := v2.1
          omega
        have hb2 := region_hash_21 v2 h21'
        have h8 : (8 : Nat) ≤ 2 ^ (3 * s1.level + 3) := by
          calc (8 : Nat) = 2 ^ 3 := by norm_num
            _ ≤ 2 ^ (3 * s1.level + 3) := Nat.pow_le_pow_right (by norm_num) (by omega)
        omega
    rcases Nat.lt_or_ge r1.level r2.level with hlt | hge
    · exact key r1 r2 h1 h2 hlt
    · exact fun hcon => key r2 r1 h2 h1 (by omega) hcon.symm

/-- C2 witness: the root address and a level-1 address share the triplet
prefix, and their hashes differ. -/
theorem claim2_witness :
    MortonRegion.valid ⟨0, 0⟩ ∧ MortonRegion.valid ⟨3 * 2 ^ 60, 1⟩ ∧
    (((0 : Nat) = 1 → prefixEq 0 0 (3 * 2 ^ 60) →
        mortonRegionHash ⟨0, 0⟩ = mortonRegionHash ⟨3 * 2 ^ 60, 1⟩) ∧
      ((0 : Nat) ≠ 1 → mortonRegionHash ⟨0, 0⟩ ≠ mortonRegionHash ⟨3 * 2 ^ 60, 1⟩)) :=
  ⟨by decide, by decide, claim2 ⟨0, 0⟩ ⟨3 * 2 ^ 60, 1⟩ (by decide) (by decide)⟩

/-- C3: entering an octant and exiting again returns the entered octant and
restores the original address bit for bit. -/
theorem claim3 (r : MortonRegion) (h : r.valid) (hl : r.level < 21) (o : Nat)
    (ho : o < 8) : (r.enter o).exit = (o, r) :=
  exit_enter h hl ho

/-- C3 witness: enter then exit at the root with octant 5. -/
theorem claim3_witness :
    MortonRegion.valid ⟨0, 0⟩ ∧ (0 : Nat) < 21 ∧ (5 : Nat) < 8 ∧
    (MortonRegion.exit (MortonRegion.enter ⟨0, 0⟩ 5) = (5, ⟨0, 0⟩)) :=
  ⟨by decide, by decide, by decide, claim3 ⟨0, 0⟩ (by decide) (by decide) 5 (by decide)⟩

/-- C4: next at the root is none; next of an address whose deepest octant k
is below 7 is the same-level sibling with octant k + 1 and unchanged
ancestor prefix; next of an address with octant 7 is none, with no climbing
to an ancestor sibling. -/
theorem claim4 (r : MortonRegion) (h : r.valid) :
    (r.level = 0 → r.next = none) ∧
    (0 < r.level → r.get < 7 →
      ∃ n, r.next = some n ∧ n.level = r.level ∧ n.get = r.get + 1 ∧
        prefixEq (r.level - 1) n.morton r.morton) ∧
    (0 < r.level → r.get = 7 → r.next = none) := by
  refine ⟨next_none_zero, ?_, fun h0 h7 => next_none_seven h0 h7⟩
  intro h0 h7
  obtain ⟨n, hn, hl, hg, _, hp⟩ :=
    next_props h0 h.1 (lt_trans h.2.1 (by norm_num)) h7
  exact ⟨n, hn, hl, hg, hp⟩

/-- C4 witness: the claim applied at the level-1 address with octant 5. -/
theorem claim4_witness :
    MortonRegion.valid ⟨5 * 2 ^ 60, 1⟩ ∧
    (((⟨5 * 2 ^ 60, 1⟩ : MortonRegion).level = 0 →
        MortonRegion.next ⟨5 * 2 ^ 60, 1⟩ = none) ∧
      (0 < (⟨5 * 2 ^ 60, 1⟩ : MortonRegion).level →
        MortonRegion.get ⟨5 * 2 ^ 60, 1⟩ < 7 →
        ∃ n, MortonRegion.next ⟨5 * 2 ^ 60, 1⟩ = some n ∧
          n.level = (⟨5 * 2 ^ 60, 1⟩ : MortonRegion).level ∧
          n.get = MortonRegion.get ⟨5 * 2 ^ 60, 1⟩ + 1 ∧
          prefixEq ((⟨5 * 2 ^ 60, 1⟩ : MortonRegion).level - 1) n.morton
            (5 * 2 ^ 60)) ∧
      (0 < (⟨5 * 2 ^ 60, 1⟩ : MortonRegion).level →
        MortonRegion.get ⟨5 * 2 ^ 60, 1⟩ = 7 →
        MortonRegion.next ⟨5 * 2 ^ 60, 1⟩ = none)) :=
  ⟨by decide, claim4 ⟨5 * 2 ^ 60, 1⟩ (by decide)⟩

/-- C5: the bounded iterator rooted at the level-1 address with octant 0
over a map whose only key is the octant-1 sibling yields that sibling,
which is not in the subtree of the given root: the unconditional re-push of
the next sibling of the popped root lets the walk escape the root subtree,
contradicting the claim and the iterator doc comment. -/
theorem claim5_escape :
    MortonRegionIterator.run escMap 1 8 [escRoot] = ([(escSib, 0)], []) ∧
    ¬ inSubtree escRoot escSib ∧ escMap escSib = some 0 := by
  refine ⟨by decide, by decide, rfl⟩

/-- C6 counterexample: with the literal keys of the claim, where
B = A.enter(3).enter(5) sits at level 3, the bounded iterator with limit 2
terminates with the empty stack after yielding only the root and A, so it
does not yield the claimed three-element sequence. -/
theorem claim6_counterexample :
    exBLit.level = 3 ∧
    MortonRegionIterator.run exMapLiteral 2 17 [exRoot] =
      ([(exRoot, 0), (exA, 1)], []) ∧
    MortonRegionIterator.run exMapLiteral 2 100 [exRoot] =
      ([(exRoot, 0), (exA, 1)], []) := by
  refine ⟨by decide, by decide, by decide⟩

/-- C6 (amended): with B = A.enter(5) at level 2, matching the level
annotation of the example, the bounded iterator with limit 2 rooted at the
root yields exactly root, A, B in that order and terminates. -/
theorem claim6_amended (fuel : Nat) (h : 17 ≤ fuel) :
    MortonRegionIterator.run exMapAmended 2 fuel [exRoot] =
      ([(exRoot, 0), (exA, 1), (exB, 2)], []) := by
  obtain ⟨k, rfl⟩ : ∃ k, fuel = 17 + k := ⟨fuel - 17, by omega⟩
  have hbase : MortonRegionIterator.run exMapAmended 2 17 [exRoot] =
      ([(exRoot, 0), (exA, 1), (exB, 2)], []) := by decide
  have hstable := run_stable exMapAmended 2 17 [exRoot] k (by rw [hbase])
  rw [hstable, hbase]

/-- C6 witness: the amended claim at fuel 17. -/
theorem claim6_witness :
    (17 : Nat) ≤ 17 ∧
    MortonRegionIterator.run exMapAmended 2 17 [exRoot] =
      ([(exRoot, 0), (exA, 1), (exB, 2)], []) :=
  ⟨by decide, claim6_amended 17 (by decide)⟩

/-- C7: popping an address that is absent from the map yields nothing in
all three iterators, and the only frontier entry it creates is the sibling
successor, which lies outside the subtree of the popped address, so no
frontier entry is ever materialised for the subtree of an absent root. -/
theorem claim7 {α σ : Type} (map : MortonMap α) (limit : Nat)
    (further : σ → MortonRegion → Bool × σ) (s : σ) (r : MortonRegion)
    (rest : List MortonRegion) (h21 : r.level ≤ 21) (hm : r.morton < 2 ^ 64)
    (habs : map r = none) :
    MortonRegionIterator.step map limit (r :: rest) = some (none, pushNext r rest) ∧
    MortonRegionFurtherIterator.step map further s (r :: rest) =
      some (none, s, pushNext r rest, []) ∧
    MortonRegionFurtherLeavesIterator.step map further s (r :: rest) =
      some (none, s, pushNext r rest, []) ∧
    ∀ q ∈ pushNext r rest, q ∈ rest ∨ ¬ inSubtree r q := by
  refine ⟨?_, ?_, ?_, ?_⟩
  · simp [MortonRegionIterator.step, habs]
  · simp [MortonRegionFurtherIterator.step, habs]
  · simp [MortonRegionFurtherLeavesIterator.step, habs]
  · intro q hq
    unfold pushNext at hq
    cases hnext : r.next with
    | none =>
      rw [hnext] at hq
      exact Or.inl hq
    | some n =>
      rw [hnext] at hq
      rcases List.mem_cons.1 hq with rfl | hmem
      · exact Or.inr (next_outside h21 hm hnext)
      · exact Or.inl hmem

/-- C7 witness: the claim applied to the empty map at the level-1 root. -/
theorem claim7_witness :
    (⟨0, 1⟩ : MortonRegion).level ≤ 21 ∧ (⟨0, 1⟩ : MortonRegion).morton < 2 ^ 64 ∧
    emptyMapNat ⟨0, 1⟩ = none ∧
    (MortonRegionIterator.step emptyMapNat 5 [⟨0, 1⟩] =
        some (none, pushNext ⟨0, 1⟩ []) ∧
      MortonRegionFurtherIterator.step emptyMapNat (fun (s : Nat) _ => (true, s)) 0
          [⟨0, 1⟩] = some (none, 0, pushNext ⟨0, 1⟩ [], []) ∧
      MortonRegionFurtherLeavesIterator.step emptyMapNat (fun (s : Nat) _ => (true, s))
          0 [⟨0, 1⟩] = some (none, 0, pushNext ⟨0, 1⟩ [], []) ∧
      ∀ q ∈ pushNext ⟨0, 1⟩ [], q ∈ ([] : List MortonRegion) ∨
        ¬ inSubtree ⟨0, 1⟩ q) :=
  ⟨by decide, by decide, rfl,
    claim7 emptyMapNat 5 (fun (s : Nat) _ => (true, s)) 0 ⟨0, 1⟩ []
      (by decide) (by decide) rfl⟩

/-- C8: encoding a point with coordinates in the unit interval and decoding
the result gives, on each axis, the centre of the finest encoded cell,
which differs from the coordinate by at most half a cell width.  The f64
operations involved, scaling by a power of two, truncation, and adding one
half, are exact, so the rational model coincides with the floating-point
computation on this domain. -/
theorem claim8 (px py pz : ℚ) (hx0 : 0 ≤ px) (hx1 : px < 1) (hy0 : 0 ≤ py)
    (hy1 : py < 1) (hz0 : 0 ≤ pz) (hz1 : pz < 1) :
    ∃ m, mortonFromVector (px, py, pz) = some m ∧
      mortonToVector m =
        (((⌊px * 2 ^ 21⌋ : ℚ) + 1 / 2) * ((2 : ℚ) ^ 21)⁻¹,
          ((⌊py * 2 ^ 21⌋ : ℚ) + 1 / 2) * ((2 : ℚ) ^ 21)⁻¹,
          ((⌊pz * 2 ^ 21⌋ : ℚ) + 1 / 2) * ((2 : ℚ) ^ 21)⁻¹) ∧
      |((⌊px * 2 ^ 21⌋ : ℚ) + 1 / 2) * ((2 : ℚ) ^ 21)⁻¹ - px| ≤ ((2 : ℚ) ^ 22)⁻¹ ∧
      |((⌊py * 2 ^ 21⌋ : ℚ) + 1 / 2) * ((2 : ℚ) ^ 21)⁻¹ - py| ≤ ((2 : ℚ) ^ 22)⁻¹ ∧
      |((⌊pz * 2 ^ 21⌋ : ℚ) + 1 / 2) * ((2 : ℚ) ^ 21)⁻¹ - pz| ≤ ((2 : ℚ) ^ 22)⁻¹ := by
  refine ⟨_, encode_domain hx0 hx1 hy0 hy1 hz0 hz1, ?_, center_close hx0 hx1,
    center_close hy0 hy1, center_close hz0 hz1⟩
  rw [decode_code (floor_toNat_lt hx0 hx1) (floor_toNat_lt hy0 hy1)
      (floor_toNat_lt hz0 hz1)]
  have cx : ((Int.toNat ⌊px * 2 ^ 21⌋ : ℕ) : ℚ) = ((⌊px * 2 ^ 21⌋ : ℤ) : ℚ) := by
    have h := Int.toNat_of_nonneg (Int.floor_nonneg.2 (by positivity : (0 : ℚ) ≤ px * 2 ^ 21))
    exact_mod_cast congrArg (fun z : ℤ => (z : ℚ)) h
  have cy : ((Int.toNat ⌊py * 2 ^ 21⌋ : ℕ) : ℚ) = ((⌊py * 2 ^ 21⌋ : ℤ) : ℚ) := by
    have h := Int.toNat_of_nonneg (Int.floor_nonneg.2 (by positivity : (0 : ℚ) ≤ py * 2 ^ 21))
    exact_mod_cast congrArg (fun z : ℤ => (z : ℚ)) h
  have cz : ((Int.toNat ⌊pz * 2 ^ 21⌋ : ℕ) : ℚ) = ((⌊pz * 2 ^ 21⌋ : ℤ) : ℚ) := by
    have h := Int.toNat_of_nonneg (Int.floor_nonneg.2 (by positivity : (0 : ℚ) ≤ pz * 2 ^ 21))
    exact_mod_cast congrArg (fun z : ℤ => (z : ℚ)) h
  rw [cx, cy, cz]

/-- C8 witness: the claim applied at the point with coordinates one half,
one third and zero. -/
theorem claim8_witness :
    (0 : ℚ) ≤ 1 / 2 ∧ (1 / 2 : ℚ) < 1 ∧ (0 : ℚ) ≤ 1 / 3 ∧ (1 / 3 : ℚ) < 1 ∧
    (0 : ℚ) ≤ 0 ∧ (0 : ℚ) < 1 ∧
    (∃ m, mortonFromVector (1 / 2, 1 / 3, 0) = some m ∧
      mortonToVector m =
        (((⌊(1 / 2 : ℚ) * 2 ^ 21⌋ : ℚ) + 1 / 2) * ((2 : ℚ) ^ 21)⁻¹,
          ((⌊(1 / 3 : ℚ) * 2 ^ 21⌋ : ℚ) + 1 / 2) * ((2 : ℚ) ^ 21)⁻¹,
          ((⌊(0 : ℚ) * 2 ^ 21⌋ : ℚ) + 1 / 2) * ((2 : ℚ) ^ 21)⁻¹) ∧
      |((⌊(1 / 2 : ℚ) * 2 ^ 21⌋ : ℚ) + 1 / 2) * ((2 : ℚ) ^ 21)⁻¹ - 1 / 2| ≤
        ((2 : ℚ) ^ 22)⁻¹ ∧
      |((⌊(1 / 3 : ℚ) * 2 ^ 21⌋ : ℚ) + 1 / 2) * ((2 : ℚ) ^ 21)⁻¹ - 1 / 3| ≤
        ((2 : ℚ) ^ 22)⁻¹ ∧
      |((⌊(0 : ℚ) * 2 ^ 21⌋ : ℚ) + 1 / 2) * ((2 : ℚ) ^ 21)⁻¹ - 0| ≤
        ((2 : ℚ) ^ 22)⁻¹) :=
  ⟨by norm_num, by norm_num, by norm_num, by norm_num, by norm_num, by norm_num,
    claim8 (1 / 2) (1 / 3) 0 (by norm_num) (by norm_num) (by norm_num) (by norm_num)
      (by norm_num) (by norm_num)⟩

/-- C10: in one loop iteration of either predicate-driven iterator the
descent predicate is invoked exactly once when the popped address is
present and not at all when it is absent, and over a whole run every
recorded invocation is on an address present in the map. -/
theorem claim10 :
    (∀ (α σ : Type) (map : MortonMap α) (further : σ → MortonRegion → Bool × σ)
        (s : σ) (r : MortonRegion) (rest : List MortonRegion),
      (MortonRegionFurtherIterator.step map further s (r :: rest)).map
          (fun t => t.2.2.2) = some (if (map r).isSome then [r] else []) ∧
      (MortonRegionFurtherLeavesIterator.step map further s (r :: rest)).map
          (fun t => t.2.2.2) = some (if (map r).isSome then [r] else [])) ∧
    (∀ (α σ : Type) (map : MortonMap α) (further : σ → MortonRegion → Bool × σ)
        (fuel : Nat) (s : σ) (st : List MortonRegion) (c : MortonRegion),
      (c ∈ (MortonRegionFurtherIterator.run map further fuel s st).2.2.2 →
        (map c).isSome = true) ∧
      (c ∈ (MortonRegionFurtherLeavesIterator.run map further fuel s st).2.2.2 →
        (map c).isSome = true)) := by
  constructor
  · intro α σ map further s r rest
    constructor
    · rcases hmr : map r with _ | v
      · simp [MortonRegionFurtherIterator.step, hmr]
      · simp [MortonRegionFurtherIterator.step, hmr]
    · rcases hmr : map r with _ | v
      · simp [MortonRegionFurtherLeavesIterator.step, hmr]
      · rcases hb : (further s r).1 with _ | _ <;>
          simp [MortonRegionFurtherLeavesIterator.step, hmr, hb]
  · intro α σ map further fuel s st c
    exact ⟨furtherRun_calls map further fuel s st c,
      leavesRun_calls map further fuel s st c⟩

/-- C10 witness: a run over the map containing only the sibling address
records exactly one invocation, on that present address. -/
theorem claim10_witness :
    escSib ∈ (MortonRegionFurtherIterator.run escMap
        (fun (s : Nat) _ => (true, s)) 3 0 [escRoot]).2.2.2 ∧
    (escMap escSib).isSome = true :=
  ⟨by decide,
    claim10.2 Nat Nat escMap (fun s _ => (true, s)) 3 0 [escRoot] escSib |>.1
      (by decide)⟩
